import Mathlib

/-!
# Verification of the npm-data-exporter core against its specification

Shallow embedding of the data-export utility (strategy/factory pipeline,
CSV flattening and escaping, JSON serialization, registry and facade).
JavaScript values are modelled by `JsValue` (the JSON-representable data
values: null, boolean, integer number, string, array, object); JavaScript
objects are association lists with insertion order, and property update
keeps the original position of an existing key, as in JS.
-/

set_option maxHeartbeats 1000000

namespace DataExporter

/-- Model of a JavaScript data value (the JSON-representable fragment:
`null`, booleans, integer numbers, strings, arrays and plain objects). -/
inductive JsValue where
  | vnull
  | vbool (b : Bool)
  | vnum (n : Int)
  | vstr (s : String)
  | varr (elems : List JsValue)
  | vobj (fields : List (String × JsValue))

/-- JavaScript truthiness of a value (`!data` in the source negates this):
`null`, `false`, `0` and `""` are falsy, everything else is truthy. -/
def truthy : JsValue → Bool
  | .vnull => false
  | .vbool b => b
  | .vnum n => n != 0
  | .vstr s => s != ""
  | .varr _ => true
  | .vobj _ => true

/-- `typeof v === "object"` in JavaScript: true for `null`, arrays and objects. -/
def typeofIsObject : JsValue → Bool
  | .vnull => true
  | .varr _ => true
  | .vobj _ => true
  | _ => false

/-- `Array.isArray`. -/
def isArray : JsValue → Bool
  | .varr _ => true
  | _ => false

/-- Whether a value is a plain (non-array, non-null) object. -/
def isPlainObject : JsValue → Bool
  | .vobj _ => true
  | _ => false

/-- First-match association lookup (JS property read on an object whose
keys are unique; also `Map.get`). -/
def getKey {α : Type} : List (String × α) → String → Option α
  | [], _ => none
  | (k, v) :: rest, key => if k = key then some v else getKey rest key

/-- JS property assignment `o[k] = v` (also `Map.set`): updates the value
in place when the key exists (keeping its position), appends the key
otherwise. -/
def setKey {α : Type} : List (String × α) → String → α → List (String × α)
  | [], key, v => [(key, v)]
  | (k, w) :: rest, key, v =>
    if k = key then (k, v) :: rest else (k, w) :: setKey rest key v

/-- `Object.keys(v)`: field names of an object, index strings of an array,
empty otherwise. -/
def jsKeys : JsValue → List String
  | .vobj fs => fs.map Prod.fst
  | .varr xs => (List.range xs.length).map (fun i => toString i)
  | _ => []

/-- `v[key]` property access, `none` standing for `undefined`. -/
def jsGet : JsValue → String → Option JsValue
  | .vobj fs, key => getKey fs key
  | .varr xs, key =>
    match key.toNat? with
    | some i => xs[i]?
    | none => none
  | _, _ => none

/-- Decimal digit characters with explicit recursion fuel (enough fuel
never runs out, since dividing by ten shrinks the number). -/
def natDigitsAux : Nat → Nat → List Char
  | 0, _ => []
  | fuel + 1, n =>
    if n < 10 then [Char.ofNat (48 + n)]
    else natDigitsAux fuel (n / 10) ++ [Char.ofNat (48 + n % 10)]

/-- Decimal digits of a natural number, most significant first
(the digit sequence `String(n)` produces for a non-negative integer). -/
def natDigits (n : Nat) : List Char := natDigitsAux (n + 1) n

/-- Characters of `String(i)` for an integer JavaScript number. -/
def intChars (i : Int) : List Char :=
  if i < 0 then '-' :: natDigits i.natAbs else natDigits i.natAbs

/-- Lowercase hexadecimal digit character for `n < 16`. -/
def hexDigit (n : Nat) : Char :=
  if n < 10 then Char.ofNat (48 + n) else Char.ofNat (87 + n)

/-- How `JSON.stringify` escapes one character inside a string literal. -/
def escapeFragment (c : Char) : List Char :=
  if c = '"' then ['\\', '"']
  else if c = '\\' then ['\\', '\\']
  else if c = '\n' then ['\\', 'n']
  else if c = '\r' then ['\\', 'r']
  else if c = '\t' then ['\\', 't']
  else if c = '\x08' then ['\\', 'b']
  else if c = '\x0c' then ['\\', 'f']
  else if c.toNat < 32 then
    ['\\', 'u', '0', '0', hexDigit (c.toNat / 16), hexDigit (c.toNat % 16)]
  else [c]

/-- Escaped body of a JSON string literal. -/
def escBody : List Char → List Char
  | [] => []
  | c :: rest => escapeFragment c ++ escBody rest

/-- A JSON string literal: quote, escaped body, quote. -/
def quoteChars (s : String) : List Char := '"' :: (escBody s.toList ++ ['"'])

/-- Line break plus indentation emitted by `JSON.stringify(_, null, 2)`;
nothing in compact mode. -/
def jsonNl (pretty : Bool) (ind : Nat) : List Char :=
  if pretty then '\n' :: List.replicate ind ' ' else []

/-- Separator after an object key: `": "` pretty, `":"` compact. -/
def jsonColon (pretty : Bool) : List Char := if pretty then [':', ' '] else [':']

mutual

/-- Characters of `JSON.stringify(v)` (compact) or `JSON.stringify(v, null, 2)`
(pretty, at indentation `ind`). -/
def renderVal (pretty : Bool) (ind : Nat) : JsValue → List Char
  | .vnull => ['n', 'u', 'l', 'l']
  | .vbool true => ['t', 'r', 'u', 'e']
  | .vbool false => ['f', 'a', 'l', 's', 'e']
  | .vnum i => intChars i
  | .vstr s => quoteChars s
  | .varr [] => ['[', ']']
  | .varr (x :: xs) =>
    '[' :: (jsonNl pretty (ind + 2) ++ renderVal pretty (ind + 2) x ++
      renderItems pretty (ind + 2) xs ++ jsonNl pretty ind ++ [']'])
  | .vobj [] => ['\x7b', '\x7d']
  | .vobj ((k, v) :: fs) =>
    '\x7b' :: (jsonNl pretty (ind + 2) ++ quoteChars k ++ jsonColon pretty ++
      renderVal pretty (ind + 2) v ++ renderMembers pretty (ind + 2) fs ++
      jsonNl pretty ind ++ ['\x7d'])

/-- Remaining array items, each preceded by a comma (and a break when pretty). -/
def renderItems (pretty : Bool) (ind : Nat) : List JsValue → List Char
  | [] => []
  | x :: xs => ',' :: (jsonNl pretty ind ++ renderVal pretty ind x ++ renderItems pretty ind xs)

/-- Remaining object members, each preceded by a comma (and a break when pretty). -/
def renderMembers (pretty : Bool) (ind : Nat) : List (String × JsValue) → List Char
  | [] => []
  | (k, v) :: fs => ',' :: (jsonNl pretty ind ++ quoteChars k ++ jsonColon pretty ++
      renderVal pretty ind v ++ renderMembers pretty ind fs)

end

/-- `JsonExportStrategy.generateContent`: `JSON.stringify(data, null, 2)` when
`prettify` is set, `JSON.stringify(data)` otherwise. -/
def jsonGenerateContent (data : JsValue) (prettify : Bool) : String :=
  String.mk (renderVal prettify 0 data)

mutual

/-- How one element is rendered by JavaScript `Array.prototype.join`:
`null`/`undefined` become empty, nested arrays join with `","`, plain
objects print as `"[object Object]"`. -/
def jsJoinElem : JsValue → String
  | .vnull => ""
  | .vbool true => "true"
  | .vbool false => "false"
  | .vnum i => String.mk (intChars i)
  | .vstr s => s
  | .varr ys => jsJoinWith ys ","
  | .vobj _ => "[object Object]"

/-- JavaScript `Array.prototype.join` with a given separator. -/
def jsJoinWith : List JsValue → String → String
  | [], _ => ""
  | [x], _ => jsJoinElem x
  | x :: y :: rest, sep => jsJoinElem x ++ sep ++ jsJoinWith (y :: rest) sep

end

/-!
## CSV strategy

Merged configuration of `CsvExportStrategy` (defaults from
`getDefaultOptions`).  The modelled value domain has no `Date` objects, so
the `dateFormat` branch of `formatCsvValue` is outside the model; `encoding`
and the file-system write are external collaborators.
-/

structure CsvOpts where
  delimiter : String := ","
  includeHeaders : Bool := true
  quoteStrings : Bool := true
  escapeQuotes : Bool := true
  nullValue : String := ""
  flattenObjects : Bool := true
  maxDepth : Nat := 3

/-- JavaScript `String.prototype.includes` on character lists. -/
def charsHaveInfix (hay pat : List Char) : Bool :=
  match hay with
  | [] => pat.isEmpty
  | _ :: t => pat.isPrefixOf hay || charsHaveInfix t pat

/-- JavaScript `s.includes(pat)`. -/
def strIncludes (s pat : String) : Bool := charsHaveInfix s.toList pat.toList

/-- `stringValue.replace(/"/g, '""')`: double every quote character. -/
def doubleQuoteChars : List Char → List Char
  | [] => []
  | c :: rest =>
    if c = '"' then '"' :: '"' :: doubleQuoteChars rest else c :: doubleQuoteChars rest

/-- `String(value)` for the scalar values that reach the tail of
`formatCsvValue` (null/undefined, arrays and objects are handled earlier). -/
def jsScalarString : JsValue → String
  | .vnull => "null"
  | .vbool true => "true"
  | .vbool false => "false"
  | .vnum i => String.mk (intChars i)
  | .vstr s => s
  | .varr ys => jsJoinWith ys ","
  | .vobj _ => "[object Object]"

/-- `CsvExportStrategy.formatCsvValue`; `none` models `undefined`
(a missing column on a record). -/
def formatCsvValue (value : Option JsValue) (opts : CsvOpts) : String :=
  match value with
  | none => opts.nullValue
  | some .vnull => opts.nullValue
  | some (.varr xs) => "\"" ++ jsJoinWith xs "; " ++ "\""
  | some (.vobj fs) => "\"" ++ String.mk (renderVal false 0 (.vobj fs)) ++ "\""
  | some v =>
    let s0 := jsScalarString v
    let s1 :=
      if opts.escapeQuotes && strIncludes s0 "\"" then
        String.mk (doubleQuoteChars s0.toList)
      else s0
    if opts.quoteStrings &&
        (strIncludes s1 opts.delimiter || strIncludes s1 "\"" ||
          strIncludes s1 "\n" || strIncludes s1 "\r") then
      "\"" ++ s1 ++ "\""
    else s1

/-- `CsvExportStrategy.formatCsvRow`: `values.join(options.delimiter)`. -/
def formatCsvRow (values : List String) (opts : CsvOpts) : String :=
  String.intercalate opts.delimiter values

/-- Add to `acc` the keys of `ks` not already present, keeping first-seen
order (the JS `Set` insertion loop). -/
def addNewKeys (acc : List String) (ks : List String) : List String :=
  ks.foldl (fun a k => if k ∈ a then a else a ++ [k]) acc

/-- The `allKeys` set of `CsvExportStrategy.generateContent`: union of
`Object.keys` over all truthy object-typed elements, in first-appearance
order. -/
def keyUnion (data : List JsValue) : List String :=
  data.foldl
    (fun acc obj =>
      if truthy obj && typeofIsObject obj then addNewKeys acc (jsKeys obj) else acc)
    []

/-- The `rows` array built by `CsvExportStrategy.generateContent` for a
non-empty dataset: optional header row, then one row per element. -/
def csvRows (data : List JsValue) (opts : CsvOpts) : List String :=
  (if opts.includeHeaders then [formatCsvRow (keyUnion data) opts] else []) ++
    data.map (fun obj =>
      formatCsvRow ((keyUnion data).map (fun h => formatCsvValue (jsGet obj h) opts)) opts)

/-- `CsvExportStrategy.generateContent`.  The transformed data is always an
array (see `csvTransform`), so of the source guard
`!Array.isArray(data) || data.length === 0` only the length test remains. -/
def csvGenerateContent (data : List JsValue) (opts : CsvOpts) : String :=
  if data.length = 0 then "" else String.intercalate "\n" (csvRows data opts)

/-- `prefix ? prefix + "." + key : key` (empty prefix is falsy). -/
def dotKey (pre key : String) : String :=
  if pre = "" then key else pre ++ "." ++ key

/-- Field list of an object value, empty otherwise (what `Object.assign`
copies from the result of a recursive flatten call, which is always an
object there). -/
def objFields : JsValue → List (String × JsValue)
  | .vobj fs => fs
  | _ => []

/-- `Object.assign(target, source)`: copy each source entry onto the target
in order. -/
def objAssign (target source : List (String × JsValue)) : List (String × JsValue) :=
  source.foldl (fun acc kv => setKey acc kv.1 kv.2) target

mutual

/-- `CsvExportStrategy.flattenObject(obj, prefix, maxDepth, currentDepth)`. -/
def flattenObject (obj : JsValue) (pre : String) (maxDepth currentDepth : Nat) : JsValue :=
  if decide (maxDepth ≤ currentDepth) || !truthy obj || !typeofIsObject obj || isArray obj then
    obj
  else
    match obj with
    | .vobj fs => .vobj (flattenFields fs pre maxDepth currentDepth [])
    | other => other

/-- The `for (const [key, value] of Object.entries(obj))` loop of
`flattenObject`, with `acc` the `flattened` object built so far. -/
def flattenFields (fields : List (String × JsValue)) (pre : String)
    (maxDepth currentDepth : Nat) (acc : List (String × JsValue)) :
    List (String × JsValue) :=
  match fields with
  | [] => acc
  | (key, value) :: rest =>
    let newKey := dotKey pre key
    let acc' :=
      if truthy value && typeofIsObject value && !isArray value then
        objAssign acc (objFields (flattenObject value newKey maxDepth (currentDepth + 1)))
      else
        setKey acc newKey value
    flattenFields rest pre maxDepth currentDepth acc'

end

mutual

/-- All values reachable from a value by walking object entries only
(never entering arrays): the candidates a flatten result can assign. -/
def entrySubvalues : JsValue → List JsValue
  | .vobj fs => subvaluesFields fs
  | _ => []

/-- Entry values of a field list together with their own object-reachable
subvalues. -/
def subvaluesFields : List (String × JsValue) → List JsValue
  | [] => []
  | (_, v) :: rest => v :: (entrySubvalues v ++ subvaluesFields rest)

end

/-- `CsvExportStrategy.transform`: normalize to an array of records, then
flatten each when `flattenObjects` is set. -/
def csvTransform (data : JsValue) (opts : CsvOpts) : List JsValue :=
  let records := match data with
    | .varr xs => xs
    | other => [other]
  if opts.flattenObjects then
    records.map (fun r => flattenObject r "" opts.maxDepth 0)
  else records

/-- `ExportStrategy.validate`: throws when the dataset is falsy. -/
def baseValidate (data : JsValue) : Except String Unit :=
  if truthy data then .ok () else .error "Data cannot be null or undefined"

/-- `CsvExportStrategy.validate`: base nullness check (errors propagate),
then the top-level type check `!Array.isArray(data) && typeof data !== "object"`. -/
def csvValidate (data : JsValue) : Except String Unit :=
  match baseValidate data with
  | .error e => .error e
  | .ok _ =>
    if !isArray data && !typeofIsObject data then
      .error "CSV export requires object or array of objects"
    else .ok ()

/-!
## JSON strategy
-/

/-- The metadata object of `JsonExportStrategy.transform`; `now` stands for
`new Date().toISOString()`. -/
def jsonMetadata (now : String) (recordCount : Int) : JsValue :=
  .vobj [("exportedAt", .vstr now), ("format", .vstr "json"),
         ("recordCount", .vnum recordCount), ("exporter", .vstr "DataExporter v1.0.0")]

/-- `{ ...data }` on a non-array value: object fields are copied, a string
spreads to indexed one-character entries, other primitives spread to
nothing. -/
def spreadIntoObj : JsValue → List (String × JsValue)
  | .vobj fs => fs
  | .vstr s => s.toList.enum.map (fun ic => (toString ic.1, JsValue.vstr (String.mk [ic.2])))
  | _ => []

/-- `JsonExportStrategy.transform`. -/
def jsonTransform (data : JsValue) (includeMetadata : Bool) (now : String) : JsValue :=
  let transformed : JsValue :=
    match data with
    | .varr xs => .varr xs
    | other => .vobj (spreadIntoObj other)
  if includeMetadata then
    let recordCount : Int :=
      match data with
      | .varr xs => (xs.length : Int)
      | _ => 1
    let meta := jsonMetadata now recordCount
    match transformed with
    | .varr xs => .vobj [("metadata", meta), ("data", .varr xs)]
    | .vobj fs => .vobj (setKey fs "metadata" meta)
    | other => other
  else transformed

/-- `JsonExportStrategy.validate`: the base nullness check; the
`JSON.stringify` probe never throws on the modelled value domain (which has
no circular references or bigints). -/
def jsonValidate (data : JsValue) : Except String Unit := baseValidate data

/-!
## Strategy registry (`ExportStrategyFactory`)
-/

/-- `format.toLowerCase()` for ASCII identifiers. -/
def asciiLowerChar (c : Char) : Char :=
  if 65 ≤ c.toNat ∧ c.toNat ≤ 90 then Char.ofNat (c.toNat + 32) else c

/-- `format.toLowerCase()`. -/
def jsToLower (s : String) : String := String.mk (s.toList.map asciiLowerChar)

/-- A JavaScript constructor (class value) as far as `register` inspects
it: its name and whether its prototype chain extends
`ExportStrategy.prototype`. -/
structure StrategyClass where
  className : String
  extendsExportStrategy : Bool

/-- The JS runtime values occurring in the guard of `register`: a
constructor's prototype object, or a primitive boolean. -/
inductive JsRuntimeVal where
  | protoObject (extendsES : Bool)
  | boolPrim (b : Bool)

/-- `x instanceof ExportStrategy`: true only for objects whose prototype
chain reaches `ExportStrategy.prototype`; always false on primitives. -/
def instanceofExportStrategy : JsRuntimeVal → Bool
  | .protoObject ext => ext
  | .boolPrim _ => false

/-- JS truthiness of those runtime values: prototype objects are truthy. -/
def runtimeTruthy : JsRuntimeVal → Bool
  | .protoObject _ => true
  | .boolPrim b => b

/-- JavaScript unary `!`: yields a primitive boolean. -/
def jsBang (v : JsRuntimeVal) : JsRuntimeVal := .boolPrim (!runtimeTruthy v)

/-- `strategyClass.prototype` as a runtime value. -/
def protoOf (c : StrategyClass) : JsRuntimeVal := .protoObject c.extendsExportStrategy

/-- `ExportStrategyFactory.register`.  The source guard is written
`!strategyClass.prototype instanceof ExportStrategy`; in JavaScript unary
`!` binds tighter than `instanceof`, so it evaluates as
`(!strategyClass.prototype) instanceof ExportStrategy`. -/
def register (strategies : List (String × StrategyClass)) (format : String)
    (strategyClass : StrategyClass) : Except String (List (String × StrategyClass)) :=
  if instanceofExportStrategy (jsBang (protoOf strategyClass)) then
    .error (strategyClass.className ++ " must extend ExportStrategy")
  else
    .ok (setKey strategies (jsToLower format) strategyClass)

/-!
## Exporter facade (`DataExporter`)
-/

/-- Result of one export: in-memory content or the written file's path. -/
inductive ExportResult where
  | content (text : String)
  | path (p : String)

/-- A per-format override object (the `options[format]` sub-objects read by
`toMultiple`): each present key overrides the merged configuration. -/
structure ConfigPatch where
  outputPath : Option (Option String) := none
  outputDir : Option (Option String) := none
  createTimestamp : Option Bool := none
  filename : Option (Option String) := none
  prettify : Option Bool := none
  includeMetadata : Option Bool := none
  delimiter : Option String := none
  includeHeaders : Option Bool := none
  quoteStrings : Option Bool := none
  escapeQuotes : Option Bool := none
  nullValue : Option String := none
  flattenObjects : Option Bool := none
  maxDepth : Option Nat := none

/-- The merged configuration a single export call runs with: strategy
defaults, exporter defaults (`outputDir`, `createTimestamp`) and the
per-call options collapsed into one record.  `perFormat` holds the
`options[format]` per-format override objects used by `toMultiple`. -/
structure ExporterConfig where
  outputPath : Option String := none
  outputDir : Option String := some "./exports"
  createTimestamp : Bool := true
  filename : Option String := none
  prettify : Bool := true
  includeMetadata : Bool := true
  delimiter : String := ","
  includeHeaders : Bool := true
  quoteStrings : Bool := true
  escapeQuotes : Bool := true
  nullValue : String := ""
  flattenObjects : Bool := true
  maxDepth : Nat := 3
  perFormat : List (String × ConfigPatch) := []

/-- `{ ...options, ...patch }`: spread the present keys of a per-format
override object over the merged configuration. -/
def applyPatch (c : ExporterConfig) (p : ConfigPatch) : ExporterConfig :=
  { c with
    outputPath := p.outputPath.getD c.outputPath,
    outputDir := p.outputDir.getD c.outputDir,
    createTimestamp := p.createTimestamp.getD c.createTimestamp,
    filename := p.filename.getD c.filename,
    prettify := p.prettify.getD c.prettify,
    includeMetadata := p.includeMetadata.getD c.includeMetadata,
    delimiter := p.delimiter.getD c.delimiter,
    includeHeaders := p.includeHeaders.getD c.includeHeaders,
    quoteStrings := p.quoteStrings.getD c.quoteStrings,
    escapeQuotes := p.escapeQuotes.getD c.escapeQuotes,
    nullValue := p.nullValue.getD c.nullValue,
    flattenObjects := p.flattenObjects.getD c.flattenObjects,
    maxDepth := p.maxDepth.getD c.maxDepth }

/-- The CSV option record carried by a merged configuration. -/
def csvOptsOf (c : ExporterConfig) : CsvOpts :=
  { delimiter := c.delimiter, includeHeaders := c.includeHeaders,
    quoteStrings := c.quoteStrings, escapeQuotes := c.escapeQuotes,
    nullValue := c.nullValue, flattenObjects := c.flattenObjects,
    maxDepth := c.maxDepth }

/-- Truthiness of an optional string option (`null`/`undefined` and `""`
are falsy). -/
def optStrTruthy : Option String → Bool
  | none => false
  | some s => s != ""

/-- `if (config.outputPath)`: persist and return the path when the merged
configuration holds a truthy output path, else return the content. -/
def deliver (text : String) (outputPath : Option String) : ExportResult :=
  match outputPath with
  | some p => if p = "" then .content text else .path p
  | none => .content text

/-- `ExportStrategy.export` for the JSON strategy: validate, transform,
generate content, then persist-and-return-path or return content.  The
`saveToFile` write is the external persistence collaborator, modelled as
succeeding. -/
def jsonStrategyExport (data : JsValue) (config : ExporterConfig) (now : String) :
    Except String ExportResult :=
  match jsonValidate data with
  | .error e => .error e
  | .ok _ =>
    let transformed := jsonTransform data config.includeMetadata now
    let text := jsonGenerateContent transformed config.prettify
    .ok (deliver text config.outputPath)

/-- `ExportStrategy.export` for the CSV strategy. -/
def csvStrategyExport (data : JsValue) (config : ExporterConfig) (_now : String) :
    Except String ExportResult :=
  match csvValidate data with
  | .error e => .error e
  | .ok _ =>
    let records := csvTransform data (csvOptsOf config)
    let text := csvGenerateContent records (csvOptsOf config)
    .ok (deliver text config.outputPath)

/-- `ExportStrategyFactory.create` over the default registry (`json` and
`csv` pre-registered by `registerDefaultStrategies`): resolve the
lowercased identifier or fail with the unsupported-format error. -/
def factoryCreate (format : String) :
    Except String (JsValue → ExporterConfig → String → Except String ExportResult) :=
  if jsToLower format = "json" then .ok jsonStrategyExport
  else if jsToLower format = "csv" then .ok csvStrategyExport
  else .error ("Unsupported export format: " ++ format)

/-- `replace(/[:.]/g, "-")` applied to the ISO timestamp. -/
def dashTimestamp (s : String) : String :=
  String.mk (s.toList.map (fun c => if c = ':' then '-' else if c = '.' then '-' else c))

/-- `path.resolve(dir, filename)`, abstracted to joining with a separator
(path resolution proper belongs to the external file-system collaborator). -/
def resolvePath (dir filename : String) : String := dir ++ "/" ++ filename

/-- `DataExporter.generateOutputPath`. -/
def generateOutputPath (format : String) (config : ExporterConfig) (now : String) : String :=
  let timestamp := if config.createTimestamp then dashTimestamp now else ""
  let fallback :=
    "export" ++ (if timestamp = "" then "" else "-" ++ timestamp) ++ "." ++ format
  let filename :=
    match config.filename with
    | some f => if f = "" then fallback else f
    | none => fallback
  resolvePath (config.outputDir.getD "") filename

/-- `DataExporter.export(data, format, options)`: synthesize an output path
when none is given but an output directory is configured, then resolve the
strategy and delegate.  `now` abstracts `new Date().toISOString()`. -/
def facadeExport (data : JsValue) (format : String) (options : ExporterConfig)
    (now : String) : Except String ExportResult :=
  let config :=
    if !optStrTruthy options.outputPath && optStrTruthy options.outputDir then
      { options with outputPath := some (generateOutputPath format options now) }
    else options
  match factoryCreate format with
  | .error e => .error e
  | .ok strat => strat data config now

/-- One entry of the `toMultiple` aggregate: a successful export result, or
the caught error's message. -/
inductive MultiResult where
  | success (r : ExportResult)
  | failure (message : String)

/-- `const formatOptions = { ...options, ...options[format] }` in
`toMultiple`: spreading an absent per-format override changes nothing. -/
def multiOptionsFor (options : ExporterConfig) (format : String) : ExporterConfig :=
  match getKey options.perFormat format with
  | some patch => applyPatch options patch
  | none => options

/-- The `try`/`catch` body of the `toMultiple` loop for one format. -/
def multiResultFor (data : JsValue) (options : ExporterConfig) (now : String)
    (format : String) : MultiResult :=
  match facadeExport data format (multiOptionsFor options format) now with
  | .ok r => .success r
  | .error e => .failure e

/-- `DataExporter.toMultiple`: export to each requested format, catching
per-format failures, results keyed by format identifier. -/
def toMultiple (data : JsValue) (formats : List String) (options : ExporterConfig)
    (now : String) : List (String × MultiResult) :=
  formats.foldl
    (fun results format => setKey results format (multiResultFor data options now format))
    []

/-!
## A model of `JSON.parse`

Used to state the JSON round-trip property.  It covers the serializer's
output language (JSON with integer numerals); fuel makes the recursion
structural, and one unit per parsed node suffices.
-/

/-- JSON whitespace. -/
def isJsonWs (c : Char) : Bool := c = ' ' || c = '\n' || c = '\t' || c = '\r'

/-- Drop leading JSON whitespace. -/
def skipWs : List Char → List Char
  | [] => []
  | c :: cs => if isJsonWs c then skipWs cs else c :: cs

/-- ASCII decimal digit test. -/
def isDigitChar (c : Char) : Bool := 48 ≤ c.toNat && c.toNat ≤ 57

/-- Value of one hexadecimal digit character. -/
def hexVal (c : Char) : Option Nat :=
  if 48 ≤ c.toNat && c.toNat ≤ 57 then some (c.toNat - 48)
  else if 97 ≤ c.toNat && c.toNat ≤ 102 then some (c.toNat - 87)
  else if 65 ≤ c.toNat && c.toNat ≤ 70 then some (c.toNat - 55)
  else none

/-- The character named by a short JSON escape code. -/
def escapeCode (e : Char) : Option Char :=
  if e = '"' then some '"'
  else if e = '\\' then some '\\'
  else if e = '/' then some '/'
  else if e = 'n' then some '\n'
  else if e = 'r' then some '\r'
  else if e = 't' then some '\t'
  else if e = 'b' then some '\x08'
  else if e = 'f' then some '\x0c'
  else none

/-- Prepend a decoded character to a string-body parse result. -/
def consResult (c : Char) : Option (List Char × List Char) → Option (List Char × List Char)
  | some (cs, r) => some (c :: cs, r)
  | none => none

mutual

/-- Parse the body of a JSON string literal after the opening quote,
returning the decoded characters and the input after the closing quote. -/
def parseStringBody : List Char → Option (List Char × List Char)
  | [] => none
  | c :: rest =>
    if c = '"' then some ([], rest)
    else if c = '\\' then parseEscape rest
    else consResult c (parseStringBody rest)

/-- Parse what follows a backslash inside a string literal. -/
def parseEscape : List Char → Option (List Char × List Char)
  | [] => none
  | e :: rest2 =>
    if e = 'u' then parseHexEscape rest2
    else
      match escapeCode e with
      | some ch => consResult ch (parseStringBody rest2)
      | none => none

/-- Parse the four hex digits of a `\u` escape. -/
def parseHexEscape : List Char → Option (List Char × List Char)
  | h1 :: h2 :: h3 :: h4 :: rest3 =>
    match hexVal h1, hexVal h2, hexVal h3, hexVal h4 with
    | some a, some b, some c3, some d4 =>
      consResult (Char.ofNat (((a * 16 + b) * 16 + c3) * 16 + d4)) (parseStringBody rest3)
    | _, _, _, _ => none
  | _ => none

end

/-- Longest prefix of decimal digits, and the remaining input. -/
def takeDigits : List Char → (List Char × List Char)
  | [] => ([], [])
  | c :: rest =>
    if isDigitChar c then
      let p := takeDigits rest
      (c :: p.1, p.2)
    else ([], c :: rest)

/-- Numeric value of a digit sequence, most significant first. -/
def digitsToNat (ds : List Char) : Nat :=
  ds.foldl (fun a c => a * 10 + (c.toNat - 48)) 0

mutual

/-- Parse one JSON value (after skipping leading whitespace), returning it
with the unconsumed input. -/
def parseVal : Nat → List Char → Option (JsValue × List Char)
  | 0, _ => none
  | fuel + 1, input =>
    match skipWs input with
    | [] => none
    | c :: rest =>
      if c = 'n' then
        match rest with
        | 'u' :: 'l' :: 'l' :: r => some (.vnull, r)
        | _ => none
      else if c = 't' then
        match rest with
        | 'r' :: 'u' :: 'e' :: r => some (.vbool true, r)
        | _ => none
      else if c = 'f' then
        match rest with
        | 'a' :: 'l' :: 's' :: 'e' :: r => some (.vbool false, r)
        | _ => none
      else if c = '"' then
        match parseStringBody rest with
        | some (cs, r) => some (.vstr (String.mk cs), r)
        | none => none
      else if c = '[' then
        match skipWs rest with
        | ']' :: r => some (.varr [], r)
        | r1 =>
          match parseVal fuel r1 with
          | some (v, r2) =>
            match parseItems fuel r2 with
            | some (vs, r3) => some (.varr (v :: vs), r3)
            | none => none
          | none => none
      else if c = '\x7b' then
        match skipWs rest with
        | '\x7d' :: r => some (.vobj [], r)
        | '"' :: r1 =>
          match parseStringBody r1 with
          | some (kcs, r2) =>
            match skipWs r2 with
            | ':' :: r3 =>
              match parseVal fuel r3 with
              | some (v, r4) =>
                match parseMembers fuel r4 with
                | some (ms, r5) => some (.vobj ((String.mk kcs, v) :: ms), r5)
                | none => none
              | none => none
            | _ => none
          | none => none
        | _ => none
      else if c = '-' then
        match takeDigits rest with
        | ([], _) => none
        | (ds, r) => some (.vnum (-(digitsToNat ds : Int)), r)
      else if isDigitChar c then
        match takeDigits rest with
        | (ds, r) => some (.vnum ((digitsToNat (c :: ds) : Nat) : Int), r)
      else none

/-- Parse the remaining array items: a close bracket, or a comma followed
by a value. -/
def parseItems : Nat → List Char → Option (List JsValue × List Char)
  | 0, _ => none
  | fuel + 1, input =>
    match skipWs input with
    | ']' :: r => some ([], r)
    | ',' :: r1 =>
      match parseVal fuel r1 with
      | some (v, r2) =>
        match parseItems fuel r2 with
        | some (vs, r3) => some (v :: vs, r3)
        | none => none
      | none => none
    | _ => none

/-- Parse the remaining object members: a close brace, or a comma followed
by a key, a colon and a value. -/
def parseMembers : Nat → List Char → Option (List (String × JsValue) × List Char)
  | 0, _ => none
  | fuel + 1, input =>
    match skipWs input with
    | '\x7d' :: r => some ([], r)
    | ',' :: r0 =>
      match skipWs r0 with
      | '"' :: r1 =>
        match parseStringBody r1 with
        | some (kcs, r2) =>
          match skipWs r2 with
          | ':' :: r3 =>
            match parseVal fuel r3 with
            | some (v, r4) =>
              match parseMembers fuel r4 with
              | some (ms, r5) => some ((String.mk kcs, v) :: ms, r5)
              | none => none
            | none => none
          | _ => none
        | none => none
      | _ => none
    | _ => none

end

/-- Model of `JSON.parse` on the serializer's output language: parse one
value with input-length fuel and require only trailing whitespace. -/
def parseJson (s : String) : Option JsValue :=
  match parseVal (s.toList.length + 1) s.toList with
  | some (v, rest) => if (skipWs rest).isEmpty then some v else none
  | none => none

mutual

/-- Fuel bound for the parser: one unit per JSON node plus one per list
element. -/
def jsize : JsValue → Nat
  | .varr xs => 1 + jsizeList xs
  | .vobj fs => 1 + jsizeFields fs
  | _ => 1

/-- Fuel bound for the items of an array. -/
def jsizeList : List JsValue → Nat
  | [] => 0
  | x :: xs => 1 + jsize x + jsizeList xs

/-- Fuel bound for the members of an object. -/
def jsizeFields : List (String × JsValue) → Nat
  | [] => 0
  | (_, v) :: fs => 1 + jsize v + jsizeFields fs

end

/-- The first character of the unparsed remainder must not be a digit
(so a numeral never bleeds into it). -/
def restBoundary : List Char → Bool
  | [] => true
  | c :: _ => !isDigitChar c

/-- All characters are JSON whitespace. -/
def allWs (l : List Char) : Bool := l.all isJsonWs

/-- Whether an export outcome is in-memory content. -/
def isContentResult : Except String ExportResult → Bool
  | .ok (.content _) => true
  | _ => false

/-- A constructor that does not conform to the strategy capability set. -/
def bogusStrategyClass : StrategyClass :=
  { className := "BogusExport", extendsExportStrategy := false }

/-- The spec's wording of the CSV header set: the union of all keys across
all records, in order of first appearance. -/
def firstSeenUnion (keyss : List (List String)) : List String :=
  keyss.foldl addNewKeys []

/-!
## Theorems
-/

/-- C1: `register` never rejects any constructor — the guard
`!strategyClass.prototype instanceof ExportStrategy` evaluates
`(!prototype) instanceof ExportStrategy`, which is false for every
constructor — so even a non-conforming constructor is silently stored
under its lowercased identifier, overwriting any existing entry. -/
theorem register_accepts_every_constructor :
    (∀ (reg : List (String × StrategyClass)) (format : String) (c : StrategyClass),
        register reg format c = .ok (setKey reg (jsToLower format) c)) ∧
      register [] "XML" bogusStrategyClass = .ok [("xml", bogusStrategyClass)] ∧
      register [("xml", bogusStrategyClass)] "xml"
          { className := "Other", extendsExportStrategy := true } =
        .ok [("xml", { className := "Other", extendsExportStrategy := true })] := by
  refine ⟨fun reg format c => rfl, rfl, rfl⟩

/-- C2 counterexample: a sequence of bare scalars passes the CSV
validation step — the source only checks the top-level value's type, so
`[1, 2, 3]` is accepted, where the claim requires a `ValidationError`. -/
theorem csvValidate_accepts_scalar_sequence :
    csvValidate (.varr [.vnum 1, .vnum 2, .vnum 3]) = .ok () := rfl

/-- C2 (amended): the CSV validation step rejects exactly the datasets
that are neither an array nor a plain object — every null and every bare
scalar — while every array passes, regardless of its element types. -/
theorem csvValidate_ok_iff (v : JsValue) :
    csvValidate v = .ok () ↔ ((∃ xs, v = .varr xs) ∨ (∃ fs, v = .vobj fs)) := by
  cases v with
  | vnull => simp [csvValidate, baseValidate, truthy]
  | vbool b =>
    cases b <;> simp [csvValidate, baseValidate, truthy, isArray, typeofIsObject]
  | vnum n =>
    by_cases h : n = 0 <;>
      simp [csvValidate, baseValidate, truthy, isArray, typeofIsObject, h]
  | vstr s =>
    by_cases h : s = "" <;>
      simp [csvValidate, baseValidate, truthy, isArray, typeofIsObject, h]
  | varr xs => simp [csvValidate, baseValidate, truthy, isArray, typeofIsObject]
  | vobj fs => simp [csvValidate, baseValidate, truthy, isArray, typeofIsObject]

/-- C4 counterexample: the dataset `0` is not null (nor undefined), yet the
shared validation step rejects it — `!data` is true for every falsy value. -/
theorem baseValidate_rejects_zero :
    JsValue.vnum 0 ≠ JsValue.vnull ∧
      baseValidate (.vnum 0) = .error "Data cannot be null or undefined" :=
  ⟨fun h => JsValue.noConfusion h, rfl⟩

/-- C4 (amended): the shared validation step rejects exactly the falsy
datasets — null (and undefined), `false`, `0` and the empty string — so
besides null/undefined it also rejects the falsy non-null scalars. -/
theorem baseValidate_error_iff (v : JsValue) :
    baseValidate v = .error "Data cannot be null or undefined" ↔
      (v = .vnull ∨ v = .vbool false ∨ v = .vnum 0 ∨ v = .vstr "") := by
  cases v <;> simp [baseValidate, truthy]

/-- C6: exporting the empty sequence through the CSV strategy yields the
empty string (in-memory mode), with no header row emitted regardless of
`includeHeaders`. -/
theorem csv_empty_sequence_exports_empty_string
    (config : ExporterConfig) (now : String)
    (hpath : optStrTruthy config.outputPath = false) :
    csvStrategyExport (.varr []) config now = .ok (.content "") := by
  unfold csvStrategyExport
  have hval : csvValidate (.varr []) = .ok () := rfl
  have htr : csvTransform (.varr []) (csvOptsOf config) = [] := by
    unfold csvTransform; cases h : (csvOptsOf config).flattenObjects <;> simp [h]
  rw [hval]
  simp only [Except.bind]
  rw [htr]
  have hgen : csvGenerateContent [] (csvOptsOf config) = "" := rfl
  rw [hgen]
  cases hp : config.outputPath with
  | none => rfl
  | some p =>
    rw [hp] at hpath
    simp [optStrTruthy] at hpath
    simp [hpath, deliver]

/-- C6 witness: the default configuration (which has `includeHeaders`
set) still yields the empty string on the empty sequence. -/
theorem csv_empty_sequence_witness :
    csvStrategyExport (.varr []) {} "2024-01-01T00:00:00.000Z" = .ok (.content "") :=
  csv_empty_sequence_exports_empty_string {} "2024-01-01T00:00:00.000Z" rfl

/-- On a sequence of records, the `allKeys` set the code builds is exactly
the first-appearance union of the records' key lists. -/
theorem keyUnion_records (records : List (List (String × JsValue))) :
    keyUnion (records.map JsValue.vobj) =
      firstSeenUnion (records.map (fun fs => fs.map Prod.fst)) := by
  unfold keyUnion firstSeenUnion
  simp [List.foldl_map, truthy, typeofIsObject, jsKeys]

/-- The serialized CSV text is always the newline-join of the `csvRows`
list (for the empty dataset both sides are the empty string). -/
theorem csvGenerateContent_eq_rows (data : List JsValue) (opts : CsvOpts) :
    csvGenerateContent data opts = String.intercalate "\n" (csvRows data opts) := by
  cases data with
  | nil =>
    unfold csvGenerateContent csvRows keyUnion
    cases h : opts.includeHeaders <;>
      simp [h, formatCsvRow, String.intercalate, String.intercalate.go]
  | cons x xs =>
    unfold csvGenerateContent
    simp

/-- The data rows of `csvRows`: everything after the optional header row. -/
theorem csvRows_drop (data : List JsValue) (opts : CsvOpts) :
    (csvRows data opts).drop (if opts.includeHeaders then 1 else 0) =
      data.map (fun obj =>
        formatCsvRow ((keyUnion data).map (fun h => formatCsvValue (jsGet obj h) opts)) opts) := by
  cases h : opts.includeHeaders <;> simp [csvRows, h]

/-- C5: for every sequence of records, the CSV serialization is the
newline-join (no trailing newline) of a row list whose length is the
record count plus one exactly when headers are requested; the column list
is the first-appearance union of all record keys; the header row (when
requested) is that union joined by the delimiter; and every data row is a
delimiter-join of exactly one cell per union key. -/
theorem csv_serialization_shape (records : List (List (String × JsValue))) (opts : CsvOpts) :
    csvGenerateContent (records.map JsValue.vobj) opts =
        String.intercalate "\n" (csvRows (records.map JsValue.vobj) opts) ∧
      (csvRows (records.map JsValue.vobj) opts).length =
        records.length + (if opts.includeHeaders then 1 else 0) ∧
      keyUnion (records.map JsValue.vobj) =
        firstSeenUnion (records.map (fun fs => fs.map Prod.fst)) ∧
      (opts.includeHeaders = true →
        (csvRows (records.map JsValue.vobj) opts).head? =
          some (formatCsvRow (keyUnion (records.map JsValue.vobj)) opts)) ∧
      ∀ row ∈ (csvRows (records.map JsValue.vobj) opts).drop
          (if opts.includeHeaders then 1 else 0),
        ∃ cells, cells.length = (keyUnion (records.map JsValue.vobj)).length ∧
          row = formatCsvRow cells opts := by
  refine ⟨csvGenerateContent_eq_rows _ _, ?_, keyUnion_records records, ?_, ?_⟩
  · cases h : opts.includeHeaders <;> simp [csvRows, h, Nat.add_comm]
  · intro h
    simp [csvRows, h]
  · intro row hrow
    rw [csvRows_drop] at hrow
    rcases List.mem_map.mp hrow with ⟨obj, _, hobj⟩
    exact ⟨(keyUnion (records.map JsValue.vobj)).map
        (fun h => formatCsvValue (jsGet obj h) opts),
      by simp, hobj.symm⟩

/-- C5 witness: the spec's scenario `[{id:1,name:"A"}]` with headers — two
rows, two columns. -/
theorem csv_serialization_shape_witness :
    (csvRows [JsValue.vobj [("id", .vnum 1), ("name", .vstr "A")]] {}).length = 1 + 1 ∧
      (csvRows [JsValue.vobj [("id", .vnum 1), ("name", .vstr "A")]] {}).head? =
        some (formatCsvRow (keyUnion [JsValue.vobj [("id", .vnum 1), ("name", .vstr "A")]]) {}) := by
  refine ⟨?_, ?_⟩
  · exact (csv_serialization_shape [[("id", .vnum 1), ("name", .vstr "A")]] {}).2.1
  · exact (csv_serialization_shape [[("id", .vnum 1), ("name", .vstr "A")]] {}).2.2.2.1 rfl

/-- C10: when headers are requested the header row is the raw key strings
joined by the delimiter — keys are not passed through `formatCsvValue` —
whereas a data cell whose string contains the delimiter (and no quote
character) comes out quoted, hence altered. -/
theorem csv_header_keys_verbatim (data : List JsValue) (opts : CsvOpts)
    (hh : opts.includeHeaders = true) :
    (csvRows data opts).head? =
        some (String.intercalate opts.delimiter (keyUnion data)) ∧
      ∀ s : String, opts.quoteStrings = true →
        strIncludes s opts.delimiter = true →
        strIncludes s "\"" = false →
        formatCsvValue (some (.vstr s)) opts = "\"" ++ s ++ "\"" ∧
          formatCsvValue (some (.vstr s)) opts ≠ s := by
  constructor
  · simp [csvRows, hh, formatCsvRow]
  · intro s hq hdelim hquote
    have hval : formatCsvValue (some (.vstr s)) opts = "\"" ++ s ++ "\"" := by
      unfold formatCsvValue
      simp only [jsScalarString, hquote, Bool.and_false, if_neg, Bool.false_eq_true,
        not_false_eq_true]
      simp [hq, hdelim]
    refine ⟨hval, ?_⟩
    rw [hval]
    intro habs
    have hlen := congrArg String.length habs
    simp [String.length_append] at hlen
    have hone : ("\"" : String).length = 1 := rfl
    rw [hone] at hlen
    omega

/-- C10 witness: the header key `"a,b"` contains the delimiter and is
emitted verbatim, while the same string as a data value is quoted. -/
theorem csv_header_keys_verbatim_witness :
    (csvRows [JsValue.vobj [("a,b", .vnum 1)]] {}).head? = some "a,b" ∧
      formatCsvValue (some (.vstr "a,b")) {} = "\"a,b\"" := by
  have h := csv_header_keys_verbatim [JsValue.vobj [("a,b", .vnum 1)]] {} rfl
  refine ⟨?_, (h.2 "a,b" rfl rfl rfl).1⟩
  rw [h.1]
  rfl

/-- Looking up the key just written returns the new value. -/
theorem getKey_setKey {α : Type} (l : List (String × α)) (key : String) (v : α) :
    getKey (setKey l key v) key = some v := by
  induction l with
  | nil => simp [setKey, getKey]
  | cons p rest ih =>
    obtain ⟨pk, pv⟩ := p
    by_cases h : pk = key <;> simp [setKey, getKey, h, ih]

/-- Writing one key leaves every other key's binding unchanged. -/
theorem getKey_setKey_ne {α : Type} (l : List (String × α)) (key k' : String) (v : α)
    (h : k' ≠ key) : getKey (setKey l key v) k' = getKey l k' := by
  induction l with
  | nil =>
    simp only [setKey, getKey]
    rw [if_neg (fun hh => h hh.symm)]
  | cons p rest ih =>
    obtain ⟨pk, pv⟩ := p
    by_cases hpk : pk = key
    · subst hpk
      simp only [setKey, if_pos rfl, getKey]
      rw [if_neg (fun hh => h hh.symm), if_neg (fun hh => h hh.symm)]
    · simp only [setKey, if_neg hpk, getKey]
      by_cases hk : pk = k'
      · simp [hk]
      · simp [hk, ih]

/-- Every element of `setKey l key v` is an element of `l` or the pair
just written. -/
theorem mem_setKey {α : Type} {l : List (String × α)} {key : String} {v : α}
    {p : String × α} (h : p ∈ setKey l key v) : p ∈ l ∨ p = (key, v) := by
  induction l with
  | nil =>
    simp [setKey] at h
    right; exact h
  | cons q rest ih =>
    obtain ⟨qk, qv⟩ := q
    by_cases hq : qk = key
    · subst hq
      simp only [setKey, if_pos rfl] at h
      rcases List.mem_cons.mp h with h | h
      · right; exact h
      · left; exact List.mem_cons_of_mem _ h
    · simp only [setKey, if_neg hq] at h
      rcases List.mem_cons.mp h with h | h
      · left; exact h ▸ List.mem_cons_self _ _
      · rcases ih h with hl | hr
        · left; exact List.mem_cons_of_mem _ hl
        · right; exact hr

/-- Every element of `Object.assign(l, src)` comes from `l` or from `src`. -/
theorem mem_objAssign {l src : List (String × JsValue)} {p : String × JsValue}
    (h : p ∈ objAssign l src) : p ∈ l ∨ p ∈ src := by
  induction src generalizing l with
  | nil => left; simpa [objAssign] using h
  | cons q rest ih =>
    have h' : p ∈ objAssign (setKey l q.1 q.2) rest := by
      simpa [objAssign] using h
    rcases ih h' with hl | hr
    · rcases mem_setKey hl with hll | hp
      · left; exact hll
      · right
        have hpq : p = q := by rw [hp]
        exact hpq ▸ List.mem_cons_self _ _
    · right; exact List.mem_cons_of_mem _ hr

/-- A key already present survives `setKey`. -/
theorem keys_setKey_superset {α : Type} {l : List (String × α)} {key : String} {v : α}
    {k0 : String} (h : k0 ∈ l.map Prod.fst) : k0 ∈ (setKey l key v).map Prod.fst := by
  induction l with
  | nil => simp at h
  | cons q rest ih =>
    obtain ⟨qk, qv⟩ := q
    by_cases hq : qk = key
    · subst hq
      simpa [setKey] using h
    · simp only [List.map_cons] at h
      rcases List.mem_cons.mp h with h | h
      · simp only [setKey, if_neg hq, List.map_cons]
        exact h ▸ List.mem_cons_self _ _
      · simp only [setKey, if_neg hq, List.map_cons]
        exact List.mem_cons_of_mem _ (ih h)

/-- The key just written is present after `setKey`. -/
theorem key_mem_setKey {α : Type} (l : List (String × α)) (key : String) (v : α) :
    key ∈ (setKey l key v).map Prod.fst := by
  induction l with
  | nil => simp [setKey]
  | cons q rest ih =>
    obtain ⟨qk, qv⟩ := q
    by_cases hq : qk = key
    · subst hq; simp [setKey]
    · simp only [setKey, if_neg hq, List.map_cons]
      exact List.mem_cons_of_mem _ ih

/-- A key already present survives `Object.assign`. -/
theorem keys_objAssign_superset {l src : List (String × JsValue)} {k0 : String}
    (h : k0 ∈ l.map Prod.fst) : k0 ∈ (objAssign l src).map Prod.fst := by
  induction src generalizing l with
  | nil => simpa [objAssign] using h
  | cons q rest ih =>
    have h' : k0 ∈ ((setKey l q.1 q.2).map Prod.fst) := keys_setKey_superset h
    simpa [objAssign] using ih h'

/-- A value bound in a field list occurs among the list's entry subvalues. -/
theorem value_mem_subvaluesFields {fs : List (String × JsValue)} {k : String}
    {v : JsValue} (h : (k, v) ∈ fs) : v ∈ subvaluesFields fs := by
  induction fs with
  | nil => simp at h
  | cons q rest ih =>
    obtain ⟨qk, qv⟩ := q
    rcases List.mem_cons.mp h with h | h
    · have hv : v = qv := congrArg Prod.snd h
      simp only [subvaluesFields]
      exact hv ▸ List.mem_cons_self _ _
    · simp only [subvaluesFields]
      exact List.mem_cons_of_mem _ (List.mem_append.mpr (Or.inr (ih h)))

mutual

/-- Every value bound in a flatten result is an object-entry subvalue of
the input: flattening moves values around but never manufactures or enters
them (in particular arrays appear unchanged). -/
theorem flattenObject_values_subvalues (obj : JsValue) (p : String) (m d : Nat)
    (k : String) (v : JsValue)
    (h : (k, v) ∈ objFields (flattenObject obj p m d)) : v ∈ entrySubvalues obj := by
  unfold flattenObject at h
  by_cases hguard :
      (decide (m ≤ d) || !truthy obj || !typeofIsObject obj || isArray obj) = true
  · rw [if_pos hguard] at h
    cases obj with
    | vobj fs =>
      simp only [objFields] at h
      simp only [entrySubvalues]
      exact value_mem_subvaluesFields h
    | vnull => simp [objFields] at h
    | vbool b => simp [objFields] at h
    | vnum n => simp [objFields] at h
    | vstr s => simp [objFields] at h
    | varr xs => simp [objFields] at h
  · rw [if_neg hguard] at h
    cases obj with
    | vobj fs =>
      simp only [objFields] at h
      rcases flattenFields_values_subvalues fs p m d [] k v h with hacc | hsub
      · simp at hacc
      · simpa [entrySubvalues] using hsub
    | vnull => exact absurd (by simp [truthy]) hguard
    | vbool b => exact absurd (by simp [typeofIsObject]) hguard
    | vnum n => exact absurd (by simp [typeofIsObject]) hguard
    | vstr s => exact absurd (by simp [typeofIsObject]) hguard
    | varr xs => exact absurd (by simp [isArray]) hguard

/-- Every value the field loop of `flattenObject` binds comes from the
accumulator or is an entry subvalue of the remaining fields. -/
theorem flattenFields_values_subvalues (fs : List (String × JsValue)) (p : String)
    (m d : Nat) (acc : List (String × JsValue)) (k : String) (v : JsValue)
    (h : (k, v) ∈ flattenFields fs p m d acc) : (k, v) ∈ acc ∨ v ∈ subvaluesFields fs := by
  match fs with
  | [] =>
    unfold flattenFields at h
    left; exact h
  | (key, value) :: rest =>
    unfold flattenFields at h
    rcases flattenFields_values_subvalues rest p m d _ k v h with hacc | hsub
    · by_cases hrec : (truthy value && typeofIsObject value && !isArray value) = true
      · rw [if_pos hrec] at hacc
        rcases mem_objAssign hacc with hl | hr
        · left; exact hl
        · have hv := flattenObject_values_subvalues value (dotKey p key) m (d + 1) k v hr
          right
          simp only [subvaluesFields]
          exact List.mem_cons_of_mem _ (List.mem_append.mpr (Or.inl hv))
      · rw [if_neg hrec] at hacc
        rcases mem_setKey hacc with hl | hp
        · left; exact hl
        · right
          have hv : v = value := congrArg Prod.snd hp
          simp only [subvaluesFields]
          exact hv ▸ List.mem_cons_self _ _
    · right
      simp only [subvaluesFields]
      exact List.mem_cons_of_mem _ (List.mem_append.mpr (Or.inr hsub))

end

/-- The field loop of `flattenObject` never drops a key already present in
its accumulator. -/
theorem flattenFields_keys_mono (fs : List (String × JsValue)) (p : String) (m d : Nat)
    (acc : List (String × JsValue)) {k0 : String} (h : k0 ∈ acc.map Prod.fst) :
    k0 ∈ (flattenFields fs p m d acc).map Prod.fst := by
  induction fs generalizing acc with
  | nil =>
    unfold flattenFields
    exact h
  | cons q rest ih =>
    obtain ⟨key, value⟩ := q
    unfold flattenFields
    dsimp only
    by_cases hrec : (truthy value && typeofIsObject value && !isArray value) = true
    · rw [if_pos hrec]
      exact ih _ (keys_objAssign_superset h)
    · rw [if_neg hrec]
      exact ih _ (keys_setKey_superset h)

/-- The field loop assigns a dotted key for every entry it does not recurse
into. -/
theorem flattenFields_adds_key (fs : List (String × JsValue)) (p : String) (m d : Nat)
    (acc : List (String × JsValue)) {k : String} {value : JsValue}
    (hmem : (k, value) ∈ fs)
    (hrec : (truthy value && typeofIsObject value && !isArray value) = false) :
    dotKey p k ∈ (flattenFields fs p m d acc).map Prod.fst := by
  induction fs generalizing acc with
  | nil => simp at hmem
  | cons q rest ih =>
    obtain ⟨qk, qv⟩ := q
    rcases List.mem_cons.mp hmem with h | h
    · have hk : k = qk := congrArg Prod.fst h
      have hv : value = qv := congrArg Prod.snd h
      subst hk hv  -- identifies qk with k and qv with value
      unfold flattenFields
      dsimp only
      rw [if_neg (by simp [hrec])]
      exact flattenFields_keys_mono rest p m d _ (key_mem_setKey acc (dotKey p k) value)
    · unfold flattenFields
      dsimp only
      by_cases hq : (truthy qv && typeofIsObject qv && !isArray qv) = true
      · rw [if_pos hq]
        exact ih _ h
      · rw [if_neg hq]
        exact ih _ h

/-- C7: the flattener treats sequences as terminal values (an array input
is returned unchanged and an array entry is assigned to its dotted key,
never recursed into), returns any input unchanged once the current depth
reaches `maxDepth` (so `maxDepth = 0` is a no-op), and every value it
binds is an object-entry subvalue of the input reached without crossing a
sequence boundary. -/
theorem flatten_treats_sequences_as_terminal :
    (∀ (xs : List JsValue) (p : String) (m d : Nat),
        flattenObject (.varr xs) p m d = .varr xs) ∧
      (∀ (v : JsValue) (p : String) (m d : Nat), m ≤ d → flattenObject v p m d = v) ∧
      (∀ (v : JsValue) (p : String), flattenObject v p 0 0 = v) ∧
      (∀ (obj : JsValue) (p : String) (m d : Nat) (k : String) (v : JsValue),
        (k, v) ∈ objFields (flattenObject obj p m d) → v ∈ entrySubvalues obj) ∧
      (∀ (fs : List (String × JsValue)) (p : String) (m d : Nat) (k : String) (v : JsValue),
        d < m → (k, v) ∈ fs → (truthy v && typeofIsObject v && !isArray v) = false →
        dotKey p k ∈ (objFields (flattenObject (.vobj fs) p m d)).map Prod.fst) := by
  refine ⟨?_, ?_, ?_, flattenObject_values_subvalues, ?_⟩
  · intro xs p m d
    unfold flattenObject
    simp [isArray]
  · intro v p m d h
    unfold flattenObject
    simp [h]
  · intro v p
    unfold flattenObject
    simp
  · intro fs p m d k v hdm hmem hrec
    unfold flattenObject
    rw [if_neg (by simp [truthy, typeofIsObject, isArray]; omega)]
    simp only [objFields]
    exact flattenFields_adds_key fs p m d [] hmem hrec

/-- C7 witness: an array input is untouched, depth zero is a no-op, a
bound value originates in the input, and an array entry receives its
dotted key. -/
theorem flatten_treats_sequences_as_terminal_witness :
    flattenObject (.varr [.vnum 1]) "" 3 0 = .varr [.vnum 1] ∧
      flattenObject (.vobj [("a", .vobj [("b", .vnum 2)])]) "" 0 0 =
        .vobj [("a", .vobj [("b", .vnum 2)])] ∧
      JsValue.vnum 1 ∈ entrySubvalues (.vobj [("a", .vnum 1)]) ∧
      dotKey "" "a" ∈
        (objFields (flattenObject (.vobj [("a", .varr [.vnum 7])]) "" 3 0)).map Prod.fst := by
  refine ⟨flatten_treats_sequences_as_terminal.1 [.vnum 1] "" 3 0,
    flatten_treats_sequences_as_terminal.2.1 _ "" 0 0 (by omega), ?_, ?_⟩
  · have hm : ("a", JsValue.vnum 1) ∈ objFields (flattenObject (.vobj [("a", .vnum 1)]) "" 3 0) := by
      simp [flattenObject, flattenFields, objFields, truthy, typeofIsObject, isArray,
        dotKey, setKey]
    exact flatten_treats_sequences_as_terminal.2.2.2.1 _ "" 3 0 "a" _ hm
  · exact flatten_treats_sequences_as_terminal.2.2.2.2 [("a", .varr [.vnum 7])] "" 3 0 "a"
      (.varr [.vnum 7]) (by omega) (by simp) rfl

/-- C8: with `includeMetadata` set, the JSON transform wraps a sequence in
a `{metadata, data}` envelope whose `recordCount` is the sequence length,
and merges the metadata into a single record as a sibling field with
`recordCount` 1, silently overwriting an existing `metadata` key while
leaving every other key's binding unchanged; the metadata carries the
literal format name and the fixed exporter identifier. -/
theorem json_transform_metadata_envelope (now : String) :
    (∀ xs : List JsValue,
        jsonTransform (.varr xs) true now =
          .vobj [("metadata", jsonMetadata now xs.length), ("data", .varr xs)]) ∧
      (∀ fs : List (String × JsValue),
        jsonTransform (.vobj fs) true now =
          .vobj (setKey fs "metadata" (jsonMetadata now 1))) ∧
      (∀ fs : List (String × JsValue),
        getKey (setKey fs "metadata" (jsonMetadata now 1)) "metadata" =
          some (jsonMetadata now 1)) ∧
      (∀ (fs : List (String × JsValue)) (k : String), k ≠ "metadata" →
        getKey (setKey fs "metadata" (jsonMetadata now 1)) k = getKey fs k) ∧
      (∀ n : Int,
        getKey (objFields (jsonMetadata now n)) "format" = some (.vstr "json") ∧
          getKey (objFields (jsonMetadata now n)) "exporter" =
            some (.vstr "DataExporter v1.0.0") ∧
          getKey (objFields (jsonMetadata now n)) "recordCount" = some (.vnum n)) :=
  ⟨fun _ => rfl, fun _ => rfl, fun fs => getKey_setKey fs _ _,
    fun fs k hk => getKey_setKey_ne fs _ k _ hk, fun _ => ⟨rfl, rfl, rfl⟩⟩

/-- C8 witness: a single record whose `metadata` key is overwritten while
its other field survives. -/
theorem json_transform_metadata_witness :
    jsonTransform (.vobj [("metadata", .vnull), ("a", .vnum 2)]) true "T" =
        .vobj [("metadata", jsonMetadata "T" 1), ("a", .vnum 2)] ∧
      getKey (setKey [("metadata", JsValue.vnull), ("a", .vnum 2)] "metadata"
          (jsonMetadata "T" 1)) "a" = some (.vnum 2) := by
  refine ⟨?_, ((json_transform_metadata_envelope "T").2.2.2.1
    [("metadata", .vnull), ("a", .vnum 2)] "a" (by decide)).trans rfl⟩
  rw [(json_transform_metadata_envelope "T").2.1 [("metadata", .vnull), ("a", .vnum 2)]]
  rfl

/-- Folding further formats never disturbs the entry of a format they do
not mention. -/
theorem toMultiple_go_untouched (data : JsValue) (options : ExporterConfig) (now : String)
    (formats : List String) (acc : List (String × MultiResult)) {f : String}
    (hf : f ∉ formats) :
    getKey (formats.foldl (fun results format =>
        setKey results format (multiResultFor data options now format)) acc) f =
      getKey acc f := by
  induction formats generalizing acc with
  | nil => rfl
  | cons g rest ih =>
    have hne : f ≠ g := fun h => hf (h ▸ List.mem_cons_self _ _)
    simp only [List.foldl_cons]
    rw [ih _ (fun h => hf (List.mem_cons_of_mem _ h)), getKey_setKey_ne _ _ _ _ hne]

/-- The aggregate lookup for any requested format, over any accumulator. -/
theorem toMultiple_lookup (data : JsValue) (options : ExporterConfig) (now : String)
    (formats : List String) :
    ∀ (acc : List (String × MultiResult)) (f : String), f ∈ formats →
      getKey (formats.foldl (fun results format =>
        setKey results format (multiResultFor data options now format)) acc) f =
        some (multiResultFor data options now f) := by
  induction formats with
  | nil => intro acc f hf; simp at hf
  | cons g rest ih =>
    intro acc f hf
    simp only [List.foldl_cons]
    by_cases hfr : f ∈ rest
    · exact ih _ f hfr
    · have hfg : f = g := by
        rcases List.mem_cons.mp hf with h | h
        · exact h
        · exact absurd h hfr
      subst hfg
      rw [toMultiple_go_untouched data options now rest _ hfr, getKey_setKey]

/-- C9: `toMultiple` returns an aggregate (its type admits no thrown
error) in which every requested format identifier is bound to the caught
outcome of its own export attempt — the successful result or the failure
message — independently of the other formats' outcomes. -/
theorem toMultiple_isolates_failures (data : JsValue) (formats : List String)
    (options : ExporterConfig) (now : String) :
    ∀ f ∈ formats,
      getKey (toMultiple data formats options now) f =
        some (multiResultFor data options now f) :=
  fun f hf => toMultiple_lookup data options now formats [] f hf

/-- C9 witness: the spec's scenario `exportMany(data, ["json","bogus"])` —
the bogus format maps to an error descriptor, the JSON one to its result,
and neither attempt disturbs the other. -/
theorem toMultiple_isolates_failures_witness :
    getKey (toMultiple (.vobj [("a", .vnum 1)]) ["json", "bogus"] {} "T") "bogus" =
        some (multiResultFor (.vobj [("a", .vnum 1)]) {} "T" "bogus") ∧
      multiResultFor (.vobj [("a", .vnum 1)]) {} "T" "bogus" =
        .failure "Unsupported export format: bogus" ∧
      getKey (toMultiple (.vobj [("a", .vnum 1)]) ["json", "bogus"] {} "T") "json" =
        some (multiResultFor (.vobj [("a", .vnum 1)]) {} "T" "json") := by
  refine ⟨toMultiple_isolates_failures _ _ _ _ "bogus" (by simp), ?_,
    toMultiple_isolates_failures _ _ _ _ "json" (by simp)⟩
  rfl


/-- Every value has positive parser fuel bound. -/
theorem jsize_pos (v : JsValue) : 1 ≤ jsize v := by
  cases v <;> simp [jsize]

/-- `skipWs` leaves input starting with a non-whitespace character alone. -/
theorem skipWs_cons_nonWs {c : Char} (h : isJsonWs c = false) (l : List Char) :
    skipWs (c :: l) = c :: l := by
  simp [skipWs, h]

/-- `skipWs` jumps over any all-whitespace prefix. -/
theorem skipWs_append_ws {ws : List Char} (h : allWs ws = true) (l : List Char) :
    skipWs (ws ++ l) = skipWs l := by
  induction ws with
  | nil => rfl
  | cons c rest ih =>
    simp only [allWs, List.all_cons, Bool.and_eq_true] at h
    simp only [List.cons_append, skipWs, h.1, if_true]
    exact ih (by simp [allWs, h.2])

/-- The pretty-printer's line breaks are all whitespace. -/
theorem allWs_jsonNl (pretty : Bool) (ind : Nat) : allWs (jsonNl pretty ind) = true := by
  cases pretty <;> simp [jsonNl, allWs, isJsonWs, List.all_replicate]

/-- A digit character is not JSON whitespace. -/
theorem digit_not_ws {c : Char} (h : isDigitChar c = true) : isJsonWs c = false := by
  simp only [isJsonWs, Bool.or_eq_false_iff]
  simp only [isDigitChar, Bool.and_eq_true, decide_eq_true_eq] at h
  refine ⟨⟨⟨?_, ?_⟩, ?_⟩, ?_⟩ <;>
    · rw [decide_eq_false_iff_not]
      intro heq
      subst heq
      revert h
      decide

/-- A digit character is none of the parser's leading literal characters. -/
theorem digit_ne_delims {c : Char} (h : isDigitChar c = true) :
    c ≠ 'n' ∧ c ≠ 't' ∧ c ≠ 'f' ∧ c ≠ '"' ∧ c ≠ '[' ∧ c ≠ '\x7b' ∧ c ≠ '-' := by
  simp only [isDigitChar, Bool.and_eq_true, decide_eq_true_eq] at h
  refine ⟨?_, ?_, ?_, ?_, ?_, ?_, ?_⟩ <;>
    · intro heq
      subst heq
      revert h
      decide

/-- Digit characters produced for `d < 10` evaluate and test as expected. -/
theorem digitChar_spec {d : Nat} (h : d < 10) :
    (Char.ofNat (48 + d)).toNat = 48 + d ∧ isDigitChar (Char.ofNat (48 + d)) = true := by
  interval_cases d <;> exact ⟨rfl, rfl⟩

/-- Every character `natDigitsAux` emits is a digit. -/
theorem natDigitsAux_all_digits :
    ∀ (fuel n : Nat), n < fuel → ∀ c ∈ natDigitsAux fuel n, isDigitChar c = true := by
  intro fuel
  induction fuel with
  | zero => intro n h; omega
  | succ f ih =>
    intro n hn c hc
    by_cases h10 : n < 10
    · simp only [natDigitsAux, if_pos h10, List.mem_singleton] at hc
      subst hc
      exact (digitChar_spec h10).2
    · simp only [natDigitsAux, if_neg h10, List.mem_append, List.mem_singleton] at hc
      rcases hc with hc | hc
      · exact ih (n / 10) (by omega) c hc
      · subst hc
        exact (digitChar_spec (Nat.mod_lt n (by omega))).2

/-- `natDigitsAux` with positive fuel emits at least one digit. -/
theorem natDigitsAux_ne_nil (fuel n : Nat) : natDigitsAux (fuel + 1) n ≠ [] := by
  by_cases h10 : n < 10 <;> simp [natDigitsAux, h10]

/-- Appending one digit multiplies the accumulated value by ten. -/
theorem digitsToNat_append (ds : List Char) (c : Char) :
    digitsToNat (ds ++ [c]) = 10 * digitsToNat ds + (c.toNat - 48) := by
  simp [digitsToNat, List.foldl_append, Nat.mul_comm]

/-- Reading the emitted digits back recovers the number. -/
theorem digitsToNat_natDigitsAux :
    ∀ (fuel n : Nat), n < fuel → digitsToNat (natDigitsAux fuel n) = n := by
  intro fuel
  induction fuel with
  | zero => intro n h; omega
  | succ f ih =>
    intro n hn
    by_cases h10 : n < 10
    · simp only [natDigitsAux, if_pos h10]
      simp [digitsToNat, (digitChar_spec h10).1]
    · simp only [natDigitsAux, if_neg h10]
      rw [digitsToNat_append, ih (n / 10) (by omega),
        (digitChar_spec (Nat.mod_lt n (by omega))).1]
      omega

/-- `takeDigits` splits a digit prefix from a non-digit remainder. -/
theorem takeDigits_append {ds rest : List Char}
    (hds : ∀ c ∈ ds, isDigitChar c = true) (hrest : restBoundary rest = true) :
    takeDigits (ds ++ rest) = (ds, rest) := by
  induction ds with
  | nil =>
    cases rest with
    | nil => rfl
    | cons c r =>
      simp only [restBoundary, Bool.not_eq_true'] at hrest
      simp [takeDigits, hrest]
  | cons d ds ih =>
    have hd : isDigitChar d = true := hds d (List.mem_cons_self _ _)
    simp only [List.cons_append, takeDigits, hd, if_true]
    rw [show ds.append rest = ds ++ rest from rfl,
      ih (fun c hc => hds c (List.mem_cons_of_mem _ hc))]

/-- Reading a hex digit character back gives the value it encodes. -/
theorem hexVal_hexDigit {m : Nat} (h : m < 16) : hexVal (hexDigit m) = some m := by
  interval_cases m <;> decide

/-- The string-literal body parser inverts the serializer's escaping. -/
theorem parseStringBody_escBody (s : List Char) (rest : List Char) :
    parseStringBody (escBody s ++ '"' :: rest) = some (s, rest) := by
  induction s with
  | nil => simp [escBody, parseStringBody]
  | cons c cs ih =>
    simp only [escBody, List.append_assoc]
    by_cases h1 : c = '"'
    · subst h1
      simp [escapeFragment, parseStringBody, parseEscape, escapeCode, consResult, ih]
    · by_cases h2 : c = '\\'
      · subst h2
        simp [escapeFragment, parseStringBody, parseEscape, escapeCode, consResult, ih]
      · by_cases h3 : c = '\n'
        · subst h3
          simp [escapeFragment, parseStringBody, parseEscape, escapeCode, consResult, ih]
        · by_cases h4 : c = '\r'
          · subst h4
            simp [escapeFragment, parseStringBody, parseEscape, escapeCode, consResult, ih]
          · by_cases h5 : c = '\t'
            · subst h5
              simp [escapeFragment, parseStringBody, parseEscape, escapeCode, consResult, ih]
            · by_cases h6 : c = '\x08'
              · subst h6
                simp [escapeFragment, parseStringBody, parseEscape, escapeCode, consResult, ih]
              · by_cases h7 : c = '\x0c'
                · subst h7
                  simp [escapeFragment, parseStringBody, parseEscape, escapeCode, consResult, ih]
                · by_cases h8 : c.toNat < 32
                  · have hfrag : escapeFragment c =
                        ['\\', 'u', '0', '0', hexDigit (c.toNat / 16), hexDigit (c.toNat % 16)] := by
                      simp [escapeFragment, h1, h2, h3, h4, h5, h6, h7, h8]
                    rw [hfrag]
                    simp only [List.cons_append, List.nil_append, parseStringBody,
                      if_neg (by decide : ¬('\\' : Char) = '"'), if_pos rfl, parseEscape]
                    unfold parseHexEscape
                    have h0 : hexVal '0' = some 0 := by decide
                    have harith : ((0 * 16 + 0) * 16 + c.toNat / 16) * 16 + c.toNat % 16
                        = c.toNat := by omega
                    simp [h0, harith, Char.ofNat_toNat, consResult, ih,
                      hexVal_hexDigit (show c.toNat / 16 < 16 by omega),
                      hexVal_hexDigit (show c.toNat % 16 < 16 by omega)]
                    have harith2 : c.toNat / 16 * 16 + c.toNat % 16 = c.toNat := by omega
                    rw [harith2, Char.ofNat_toNat]
                  · have hfrag : escapeFragment c = [c] := by
                      simp [escapeFragment, h1, h2, h3, h4, h5, h6, h7, h8]
                    rw [hfrag]
                    simp [parseStringBody, h1, h2, consResult, ih]

/-- Rebuilding a string from its character list is the identity. -/
theorem stringMk_toList : ∀ (s : String), String.mk s.toList = s
  | ⟨_⟩ => rfl

/-- `natDigits` is nonempty. -/
theorem natDigits_ne_nil (n : Nat) : natDigits n ≠ [] := natDigitsAux_ne_nil n n

/-- Whitespace is never a digit. -/
theorem ws_not_digit {c : Char} (h : isJsonWs c = true) : isDigitChar c = false := by
  simp only [isJsonWs, Bool.or_eq_true, decide_eq_true_eq] at h
  rcases h with ((h | h) | h) | h <;> subst h <;> decide

/-- What follows a rendered array item starts with a comma, whitespace or
the closing bracket — never a digit. -/
theorem restBoundary_items (pretty : Bool) (ind : Nat) (xs : List JsValue)
    {ws : List Char} (hws : allWs ws = true) (rest : List Char) :
    restBoundary (renderItems pretty ind xs ++ (ws ++ (']' :: rest))) = true := by
  cases xs with
  | nil =>
    simp only [renderItems, List.nil_append]
    cases ws with
    | nil => simp [restBoundary, isDigitChar]
    | cons w ws2 =>
      simp only [allWs, List.all_cons, Bool.and_eq_true] at hws
      simp [restBoundary, ws_not_digit hws.1]
  | cons y ys => simp [renderItems, restBoundary, isDigitChar]

/-- What follows a rendered object member starts with a comma, whitespace
or the closing brace — never a digit. -/
theorem restBoundary_members (pretty : Bool) (ind : Nat) (fs : List (String × JsValue))
    {ws : List Char} (hws : allWs ws = true) (rest : List Char) :
    restBoundary (renderMembers pretty ind fs ++ (ws ++ ('\x7d' :: rest))) = true := by
  cases fs with
  | nil =>
    simp only [renderMembers, List.nil_append]
    cases ws with
    | nil => simp [restBoundary, isDigitChar]
    | cons w ws2 =>
      simp only [allWs, List.all_cons, Bool.and_eq_true] at hws
      simp [restBoundary, ws_not_digit hws.1]
  | cons m ms =>
    obtain ⟨k, v⟩ := m
    simp [renderMembers, restBoundary, isDigitChar]

/-- A rendered value starts with some character that is not a closing
bracket or brace. -/
theorem renderVal_head_ne (pretty : Bool) (ind : Nat) (v : JsValue) :
    ∃ c t, renderVal pretty ind v = c :: t ∧ c ≠ ']' ∧ c ≠ '\x7d' := by
  cases v with
  | vnull => exact ⟨'n', ['u', 'l', 'l'], by simp only [renderVal], by decide, by decide⟩
  | vbool b =>
    cases b
    · exact ⟨'f', ['a', 'l', 's', 'e'], by simp only [renderVal], by decide, by decide⟩
    · exact ⟨'t', ['r', 'u', 'e'], by simp only [renderVal], by decide, by decide⟩
  | vstr str =>
    exact ⟨'"', escBody str.toList ++ ['"'], by simp only [renderVal, quoteChars],
      by decide, by decide⟩
  | varr xs =>
    cases xs with
    | nil => exact ⟨'[', [']'], by simp only [renderVal], by decide, by decide⟩
    | cons x xs2 =>
      exact ⟨'[', jsonNl pretty (ind + 2) ++ renderVal pretty (ind + 2) x ++
          renderItems pretty (ind + 2) xs2 ++ jsonNl pretty ind ++ [']'],
        by simp only [renderVal], by decide, by decide⟩
  | vobj fs =>
    match fs with
    | [] => exact ⟨'\x7b', ['\x7d'], by simp only [renderVal], by decide, by decide⟩
    | (k, w) :: gs =>
      exact ⟨'\x7b', jsonNl pretty (ind + 2) ++ quoteChars k ++ jsonColon pretty ++
          renderVal pretty (ind + 2) w ++ renderMembers pretty (ind + 2) gs ++
          jsonNl pretty ind ++ ['\x7d'],
        by simp only [renderVal], by decide, by decide⟩
  | vnum i =>
    simp only [renderVal, intChars]
    by_cases hi : i < 0
    · exact ⟨'-', natDigits i.natAbs, by rw [if_pos hi], by decide, by decide⟩
    · obtain ⟨c, ds, hcd⟩ : ∃ c ds, natDigits i.natAbs = c :: ds := by
        cases h : natDigits i.natAbs with
        | nil => exact absurd h (natDigits_ne_nil _)
        | cons c ds => exact ⟨c, ds, rfl⟩
      have hc : isDigitChar c = true := by
        refine natDigitsAux_all_digits (i.natAbs + 1) i.natAbs (by omega) c ?_
        rw [show natDigitsAux (i.natAbs + 1) i.natAbs = natDigits i.natAbs from rfl, hcd]
        exact List.mem_cons_self _ _
      refine ⟨c, ds, by rw [if_neg hi, hcd], ?_, ?_⟩
      · intro heq; subst heq; exact absurd hc (by decide)
      · intro heq; subst heq; exact absurd hc (by decide)

/-- A rendered value starts with a non-whitespace character, so `skipWs`
leaves it alone. -/
theorem skipWs_renderVal_append (pretty : Bool) (ind : Nat) (v : JsValue) (l : List Char) :
    skipWs (renderVal pretty ind v ++ l) = renderVal pretty ind v ++ l := by
  obtain ⟨c, t, hct, hc1, hc2⟩ := renderVal_head_ne pretty ind v
  have hcws : isJsonWs c = false := by
    cases v with
    | vnum i =>
      simp only [renderVal, intChars] at hct
      by_cases hi : i < 0
      · rw [if_pos hi] at hct
        injection hct with h1 h2
        subst h1; decide
      · rw [if_neg hi] at hct
        have hmem : c ∈ natDigits i.natAbs := by
          rw [hct]; exact List.mem_cons_self _ _
        have hc : isDigitChar c = true :=
          natDigitsAux_all_digits (i.natAbs + 1) i.natAbs (by omega) c hmem
        exact digit_not_ws hc
    | vnull =>
      simp only [renderVal] at hct
      injection hct with h1 h2
      subst h1; decide
    | vbool b =>
      cases b <;> simp only [renderVal] at hct <;>
        · injection hct with h1 h2
          subst h1; decide
    | vstr str =>
      simp only [renderVal, quoteChars] at hct
      injection hct with h1 h2
      subst h1; decide
    | varr xs =>
      cases xs <;> simp only [renderVal] at hct <;>
        · injection hct with h1 h2
          subst h1; decide
    | vobj fs =>
      match fs with
      | [] =>
        simp only [renderVal] at hct
        injection hct with h1 h2
        subst h1; decide
      | (k, w) :: gs =>
        simp only [renderVal] at hct
        injection hct with h1 h2
        subst h1; decide
  rw [hct, List.cons_append]
  exact skipWs_cons_nonWs hcws _

mutual

theorem parseVal_render (fuel : Nat) (pretty : Bool) (v : JsValue) (ind : Nat)
    (ws rest : List Char) (hws : allWs ws = true) (hfuel : jsize v ≤ fuel)
    (hrest : restBoundary rest = true) :
    parseVal fuel (ws ++ (renderVal pretty ind v ++ rest)) = some (v, rest) := by
  match fuel with
  | 0 => exact absurd hfuel (by have := jsize_pos v; omega)
  | f + 1 =>
    simp only [parseVal]
    rw [skipWs_append_ws hws, skipWs_renderVal_append]
    cases v with
    | vnull => simp [renderVal]
    | vbool b => cases b <;> simp [renderVal]
    | vstr str =>
      simp [renderVal, quoteChars, parseStringBody_escBody, stringMk_toList]
    | vnum i =>
      simp only [renderVal, intChars]
      by_cases hi : i < 0
      · simp only [if_pos hi, List.cons_append]
        have hall : ∀ ch ∈ natDigits i.natAbs, isDigitChar ch = true :=
          natDigitsAux_all_digits _ _ (by omega)
        have htake : takeDigits (natDigits i.natAbs ++ rest) = (natDigits i.natAbs, rest) :=
          takeDigits_append hall hrest
        obtain ⟨c, ds, hcd⟩ : ∃ c ds, natDigits i.natAbs = c :: ds := by
          cases h : natDigits i.natAbs with
          | nil => exact absurd h (natDigits_ne_nil _)
          | cons c ds => exact ⟨c, ds, rfl⟩
        have hval : digitsToNat (natDigits i.natAbs) = i.natAbs :=
          digitsToNat_natDigitsAux _ _ (by omega)
        rw [hcd] at htake hval
        rw [hcd]
        simp only [List.cons_append] at htake ⊢
        simp [htake, hval]
        rw [abs_of_neg hi]
        omega
      · simp only [if_neg hi]
        obtain ⟨c, ds, hcd⟩ : ∃ c ds, natDigits i.natAbs = c :: ds := by
          cases h : natDigits i.natAbs with
          | nil => exact absurd h (natDigits_ne_nil _)
          | cons c ds => exact ⟨c, ds, rfl⟩
        have hall : ∀ ch ∈ natDigits i.natAbs, isDigitChar ch = true :=
          natDigitsAux_all_digits _ _ (by omega)
        have hc : isDigitChar c = true := hall c (by rw [hcd]; exact List.mem_cons_self _ _)
        have htake : takeDigits (ds ++ rest) = (ds, rest) :=
          takeDigits_append (fun ch hch => hall ch (by rw [hcd]; exact List.mem_cons_of_mem _ hch)) hrest
        have hval : digitsToNat (natDigits i.natAbs) = i.natAbs :=
          digitsToNat_natDigitsAux _ _ (by omega)
        rw [hcd] at hval
        obtain ⟨hn, ht, hf, hq, hb, hbr, hm⟩ := digit_ne_delims hc
        rw [hcd]
        simp only [List.cons_append]
        simp only [if_neg hn, if_neg ht, if_neg hf, if_neg hq, if_neg hb, if_neg hbr,
          if_neg hm, if_pos hc, htake]
        simp [hval]
        omega
    | varr xs =>
      cases xs with
      | nil => simp [renderVal, skipWs, isJsonWs]
      | cons x xs2 =>
        have hp := jsize_pos x
        simp only [jsize, jsizeList] at hfuel
        have hx : parseVal f (renderVal pretty (ind + 2) x ++
            (renderItems pretty (ind + 2) xs2 ++ (jsonNl pretty ind ++ (']' :: rest)))) =
            some (x, renderItems pretty (ind + 2) xs2 ++ (jsonNl pretty ind ++ (']' :: rest))) := by
          have h := parseVal_render f pretty x (ind + 2) []
            (renderItems pretty (ind + 2) xs2 ++ (jsonNl pretty ind ++ (']' :: rest)))
            rfl (by omega) (restBoundary_items pretty (ind + 2) xs2 (allWs_jsonNl pretty ind) rest)
          simpa using h
        have hxs : parseItems f (renderItems pretty (ind + 2) xs2 ++
            (jsonNl pretty ind ++ (']' :: rest))) = some (xs2, rest) :=
          parseItems_render f pretty xs2 (ind + 2) (jsonNl pretty ind) rest
            (allWs_jsonNl pretty ind) (by omega)
        obtain ⟨c, t, hct, hcne, _⟩ := renderVal_head_ne pretty (ind + 2) x
        rw [hct, List.cons_append] at hx
        simp only [renderVal, List.cons_append, List.append_assoc, List.nil_append]
        rw [skipWs_append_ws (allWs_jsonNl pretty (ind + 2)), skipWs_renderVal_append, hct,
          List.cons_append]
        simp only [Char.reduceEq, reduceIte]
        split
        · rename_i r heq
          injection heq with h1 h2
          exact absurd h1 hcne
        · rw [hx]
          simp [hxs]
    | vobj fs =>
      cases fs with
      | nil => simp [renderVal, skipWs, isJsonWs]
      | cons m gs =>
        obtain ⟨k, w⟩ := m
        have hp := jsize_pos w
        simp only [jsize, jsizeFields] at hfuel
        have hms : parseMembers f (renderMembers pretty (ind + 2) gs ++
            (jsonNl pretty ind ++ ('\x7d' :: rest))) = some (gs, rest) :=
          parseMembers_render f pretty gs (ind + 2) (jsonNl pretty ind) rest
            (allWs_jsonNl pretty ind) (by omega)
        simp only [renderVal, quoteChars, List.cons_append, List.append_assoc,
          List.nil_append]
        rw [skipWs_append_ws (allWs_jsonNl pretty (ind + 2))]
        rw [skipWs_cons_nonWs (by decide)]
        simp only [Char.reduceEq, reduceIte]
        rw [parseStringBody_escBody]
        cases pretty with
        | false =>
          have hv : parseVal f (renderVal false (ind + 2) w ++
              (renderMembers false (ind + 2) gs ++ (jsonNl false ind ++ ('\x7d' :: rest)))) =
              some (w, renderMembers false (ind + 2) gs ++
                (jsonNl false ind ++ ('\x7d' :: rest))) := by
            have h := parseVal_render f false w (ind + 2) []
              (renderMembers false (ind + 2) gs ++ (jsonNl false ind ++ ('\x7d' :: rest)))
              rfl (by omega)
              (restBoundary_members false (ind + 2) gs (allWs_jsonNl false ind) rest)
            simpa using h
          simp only [jsonColon, Bool.false_eq_true, reduceIte, List.cons_append,
            List.nil_append]
          rw [skipWs_cons_nonWs (by decide)]
          simp [hv, hms, stringMk_toList]
        | true =>
          have hv : parseVal f ([' '] ++ (renderVal true (ind + 2) w ++
              (renderMembers true (ind + 2) gs ++ (jsonNl true ind ++ ('\x7d' :: rest))))) =
              some (w, renderMembers true (ind + 2) gs ++
                (jsonNl true ind ++ ('\x7d' :: rest))) :=
            parseVal_render f true w (ind + 2) [' ']
              (renderMembers true (ind + 2) gs ++ (jsonNl true ind ++ ('\x7d' :: rest)))
              rfl (by omega)
              (restBoundary_members true (ind + 2) gs (allWs_jsonNl true ind) rest)
          rw [List.cons_append, List.nil_append] at hv
          simp only [jsonColon, reduceIte, List.cons_append, List.nil_append]
          rw [skipWs_cons_nonWs (by decide)]
          simp [hv, hms, stringMk_toList]

theorem parseItems_render (fuel : Nat) (pretty : Bool) (xs : List JsValue) (ind : Nat)
    (ws rest : List Char) (hws : allWs ws = true) (hfuel : 1 + jsizeList xs ≤ fuel) :
    parseItems fuel (renderItems pretty ind xs ++ (ws ++ (']' :: rest))) = some (xs, rest) := by
  match fuel with
  | 0 => exact absurd hfuel (by omega)
  | f + 1 =>
    cases xs with
    | nil =>
      simp only [renderItems, List.nil_append, parseItems]
      rw [skipWs_append_ws hws, skipWs_cons_nonWs (by decide)]
      rfl
    | cons y ys =>
      have hp := jsize_pos y
      simp only [jsizeList] at hfuel
      have hy : parseVal f (jsonNl pretty ind ++ (renderVal pretty ind y ++
          (renderItems pretty ind ys ++ (ws ++ (']' :: rest))))) =
          some (y, renderItems pretty ind ys ++ (ws ++ (']' :: rest))) :=
        parseVal_render f pretty y ind (jsonNl pretty ind)
          (renderItems pretty ind ys ++ (ws ++ (']' :: rest)))
          (allWs_jsonNl pretty ind) (by omega)
          (restBoundary_items pretty ind ys hws rest)
      have hys : parseItems f (renderItems pretty ind ys ++ (ws ++ (']' :: rest))) =
          some (ys, rest) :=
        parseItems_render f pretty ys ind ws rest hws (by omega)
      simp only [renderItems, List.cons_append, List.append_assoc, parseItems]
      rw [skipWs_cons_nonWs (by decide)]
      simp only [Char.reduceEq, reduceIte]
      rw [hy]
      simp [hys]

theorem parseMembers_render (fuel : Nat) (pretty : Bool) (fs : List (String × JsValue))
    (ind : Nat) (ws rest : List Char) (hws : allWs ws = true)
    (hfuel : 1 + jsizeFields fs ≤ fuel) :
    parseMembers fuel (renderMembers pretty ind fs ++ (ws ++ ('\x7d' :: rest))) =
      some (fs, rest) := by
  match fuel with
  | 0 => exact absurd hfuel (by omega)
  | f + 1 =>
    cases fs with
    | nil =>
      simp only [renderMembers, List.nil_append, parseMembers]
      rw [skipWs_append_ws hws, skipWs_cons_nonWs (by decide)]
      rfl
    | cons m ms =>
      obtain ⟨k, w⟩ := m
      have hp := jsize_pos w
      simp only [jsizeFields] at hfuel
      have hms : parseMembers f (renderMembers pretty ind ms ++ (ws ++ ('\x7d' :: rest))) =
          some (ms, rest) :=
        parseMembers_render f pretty ms ind ws rest hws (by omega)
      simp only [renderMembers, quoteChars, List.cons_append, List.append_assoc,
        List.nil_append, parseMembers]
      rw [skipWs_cons_nonWs (by decide)]
      simp only [Char.reduceEq, reduceIte]
      rw [skipWs_append_ws (allWs_jsonNl pretty ind)]
      rw [skipWs_cons_nonWs (by decide)]
      simp only [Char.reduceEq, reduceIte]
      rw [parseStringBody_escBody]
      cases pretty with
      | false =>
        have hv : parseVal f (renderVal false ind w ++
            (renderMembers false ind ms ++ (ws ++ ('\x7d' :: rest)))) =
            some (w, renderMembers false ind ms ++ (ws ++ ('\x7d' :: rest))) := by
          have h := parseVal_render f false w ind []
            (renderMembers false ind ms ++ (ws ++ ('\x7d' :: rest)))
            rfl (by omega) (restBoundary_members false ind ms hws rest)
          simpa using h
        simp only [jsonColon, Bool.false_eq_true, reduceIte, List.cons_append, List.nil_append]
        rw [skipWs_cons_nonWs (by decide)]
        simp [hv, hms, stringMk_toList]
      | true =>
        have hv : parseVal f ([' '] ++ (renderVal true ind w ++
            (renderMembers true ind ms ++ (ws ++ ('\x7d' :: rest))))) =
            some (w, renderMembers true ind ms ++ (ws ++ ('\x7d' :: rest))) :=
          parseVal_render f true w ind [' ']
            (renderMembers true ind ms ++ (ws ++ ('\x7d' :: rest)))
            rfl (by omega) (restBoundary_members true ind ms hws rest)
        rw [List.cons_append, List.nil_append] at hv
        simp only [jsonColon, reduceIte, List.cons_append, List.nil_append]
        rw [skipWs_cons_nonWs (by decide)]
        simp [hv, hms, stringMk_toList]

end

mutual

/-- The parser fuel bound never exceeds the rendered length. -/
theorem jsize_le_renderLen (pretty : Bool) (ind : Nat) (v : JsValue) :
    jsize v ≤ (renderVal pretty ind v).length := by
  cases v with
  | vnull => simp [renderVal, jsize]
  | vbool b => cases b <;> simp [renderVal, jsize]
  | vnum i =>
    have h : renderVal pretty ind (.vnum i) = intChars i := by simp [renderVal]
    rw [h]
    have hne : intChars i ≠ [] := by
      simp only [intChars]
      by_cases hi : i < 0
      · simp [hi]
      · simp [hi, natDigits_ne_nil]
    have := List.length_pos.mpr hne
    simp [jsize]
    omega
  | vstr str =>
    have h : renderVal pretty ind (.vstr str) = quoteChars str := by simp [renderVal]
    rw [h]
    simp [quoteChars, jsize]
  | varr xs =>
    cases xs with
    | nil => simp [renderVal, jsize, jsizeList]
    | cons x xs2 =>
      have h1 := jsize_le_renderLen pretty (ind + 2) x
      have h2 := jsizeList_le_renderLen pretty (ind + 2) xs2
      simp [renderVal, jsize, jsizeList, List.length_append] at h1 h2 ⊢
      omega
  | vobj fs =>
    cases fs with
    | nil => simp [renderVal, jsize, jsizeFields]
    | cons m gs =>
      obtain ⟨k, w⟩ := m
      have h1 := jsize_le_renderLen pretty (ind + 2) w
      have h2 := jsizeFields_le_renderLen pretty (ind + 2) gs
      have h3 : 1 ≤ (jsonColon pretty).length := by cases pretty <;> simp [jsonColon]
      simp [renderVal, jsize, jsizeFields, List.length_append, quoteChars] at h1 h2 ⊢
      omega

/-- Fuel bound for rendered array items. -/
theorem jsizeList_le_renderLen (pretty : Bool) (ind : Nat) (xs : List JsValue) :
    jsizeList xs ≤ (renderItems pretty ind xs).length := by
  cases xs with
  | nil => simp [renderItems, jsizeList]
  | cons y ys =>
    have h1 := jsize_le_renderLen pretty ind y
    have h2 := jsizeList_le_renderLen pretty ind ys
    simp [renderItems, jsizeList, List.length_append] at h1 h2 ⊢
    omega

/-- Fuel bound for rendered object members. -/
theorem jsizeFields_le_renderLen (pretty : Bool) (ind : Nat) (fs : List (String × JsValue)) :
    jsizeFields fs ≤ (renderMembers pretty ind fs).length := by
  cases fs with
  | nil => simp [renderMembers, jsizeFields]
  | cons m ms =>
    obtain ⟨k, w⟩ := m
    have h1 := jsize_le_renderLen pretty ind w
    have h2 := jsizeFields_le_renderLen pretty ind ms
    simp [renderMembers, jsizeFields, List.length_append, quoteChars] at h1 h2 ⊢
    omega

end

/-- Parsing the serializer's output recovers the value exactly, in compact
and in pretty mode alike. -/
theorem parseJson_jsonGenerateContent (t : JsValue) (prettify : Bool) :
    parseJson (jsonGenerateContent t prettify) = some t := by
  unfold parseJson jsonGenerateContent
  have htl : (String.mk (renderVal prettify 0 t)).toList = renderVal prettify 0 t := rfl
  rw [htl]
  have hfuel : jsize t ≤ (renderVal prettify 0 t).length + 1 := by
    have := jsize_le_renderLen prettify 0 t
    omega
  have h := parseVal_render ((renderVal prettify 0 t).length + 1) prettify t 0 [] [] rfl
    hfuel rfl
  simp only [List.nil_append, List.append_nil] at h
  rw [h]
  rfl

/-- C3 counterexample: with the default exporter configuration and no
`outputPath`, the default `outputDir` (`"./exports"`) makes the facade
synthesize a path, write the file and return the path — the result is not
JSON text, so no parse of it can recover the dataset. -/
theorem facade_json_default_returns_path_not_content :
    ({} : ExporterConfig).outputPath = none ∧
      facadeExport (.vobj [("a", .vnum 1)]) "json" {} "2024-01-01T00:00:00.000Z" =
        .ok (.path "./exports/export-2024-01-01T00-00-00-000Z.json") ∧
      isContentResult
        (facadeExport (.vobj [("a", .vnum 1)]) "json" {} "2024-01-01T00:00:00.000Z") =
        false :=
  ⟨rfl, rfl, rfl⟩

/-- C3 (amended): for every dataset that is a record or a sequence and
every configuration with neither `outputPath` nor `outputDir`, the JSON
export returns text whose parse is exactly the transformed dataset: the
dataset itself when `includeMetadata` is off, the metadata envelope
(`{metadata, data}` for sequences, sibling merge for records) when it is
on. -/
theorem json_export_roundtrip (D : JsValue)
    (hD : isArray D = true ∨ isPlainObject D = true)
    (C : ExporterConfig) (now : String)
    (hpath : C.outputPath = none) (hdir : C.outputDir = none) :
    ∃ txt, facadeExport D "json" C now = .ok (.content txt) ∧
      parseJson txt = some (jsonTransform D C.includeMetadata now) ∧
      (C.includeMetadata = false → jsonTransform D C.includeMetadata now = D) ∧
      (C.includeMetadata = true →
        ((∃ xs, D = .varr xs ∧ jsonTransform D C.includeMetadata now =
            .vobj [("metadata", jsonMetadata now xs.length), ("data", D)]) ∨
          (∃ fs, D = .vobj fs ∧ jsonTransform D C.includeMetadata now =
            .vobj (setKey fs "metadata" (jsonMetadata now 1))))) := by
  have htruthy : truthy D = true := by
    rcases hD with h | h <;> cases D <;> simp_all [isArray, isPlainObject, truthy]
  refine ⟨jsonGenerateContent (jsonTransform D C.includeMetadata now) C.prettify,
    ?_, parseJson_jsonGenerateContent _ _, ?_, ?_⟩
  · unfold facadeExport
    rw [hpath, hdir]
    simp only [optStrTruthy, Bool.and_false, Bool.not_false, Bool.false_eq_true, reduceIte]
    rw [show factoryCreate "json" = Except.ok jsonStrategyExport from rfl]
    dsimp only
    unfold jsonStrategyExport jsonValidate baseValidate
    rw [htruthy]
    simp only [reduceIte, hpath]
    rfl
  · intro h
    rw [h]
    rcases hD with harr | hobj
    · cases D <;> simp_all [isArray]
      rfl
    · cases D <;> simp_all [isPlainObject]
      rfl
  · intro h
    rw [h]
    rcases hD with harr | hobj
    · cases D with
      | varr xs => exact Or.inl ⟨xs, rfl, rfl⟩
      | vnull => simp [isArray] at harr
      | vbool b => simp [isArray] at harr
      | vnum n => simp [isArray] at harr
      | vstr st => simp [isArray] at harr
      | vobj fs => simp [isArray] at harr
    · cases D with
      | vobj fs => exact Or.inr ⟨fs, rfl, rfl⟩
      | vnull => simp [isPlainObject] at hobj
      | vbool b => simp [isPlainObject] at hobj
      | vnum n => simp [isPlainObject] at hobj
      | vstr st => simp [isPlainObject] at hobj
      | varr xs => simp [isPlainObject] at hobj

/-- C3 witness: a one-record sequence exported with metadata off and no
output location round-trips to itself. -/
theorem json_export_roundtrip_witness :
    isArray (JsValue.varr [.vnum 1]) = true ∧
      (∃ txt,
        facadeExport (.varr [.vnum 1]) "json"
            { outputDir := none, includeMetadata := false } "T" = .ok (.content txt) ∧
          parseJson txt =
            some (jsonTransform (.varr [.vnum 1]) false "T") ∧
          jsonTransform (.varr [.vnum 1]) false "T" = .varr [.vnum 1]) := by
  refine ⟨rfl, ?_⟩
  obtain ⟨txt, h1, h2, h3, _⟩ := json_export_roundtrip (.varr [.vnum 1]) (Or.inl rfl)
    { outputDir := none, includeMetadata := false } "T" rfl rfl
  exact ⟨txt, h1, h2, h3 rfl⟩

end DataExporter
